import Mathlib

/-!
Verification of the browsetrace-agent event ingestion pipeline.

Shallow embedding of the Go sources:
  internal/models/models.go   — `Event`, `Batch`
  internal/database/database.go — `NewDatabase`, `createTables`, `ValidateEvent`,
                                  `InsertEvents`
  internal/server/server.go   — `handleEvents`

The request body is a list of characters; decoding models Go's
`encoding/json` `Decoder.Decode` (reads exactly one JSON value from the
stream, leaving any trailing bytes unread).  JSON numbers are modelled as
integers (the only numeric field the pipeline interprets, `ts_utc`, is an
`int64`); JSON values are otherwise the full grammar of objects, arrays,
strings, booleans and null.
-/

namespace BrowseTrace

/-- A JSON value as manipulated by the agent.  Numbers carry an `Int`
(model restriction: integer-valued numerals only). -/
inductive Json where
  | null : Json
  | bool (b : Bool) : Json
  | num (n : Int) : Json
  | str (s : String) : Json
  | arr (elems : List Json) : Json
  | obj (fields : List (String × Json)) : Json

mutual

/-- Decidable equality on JSON values (the derive handler does not support
the nested recursion, so it is written out). -/
def Json.decEq : (a b : Json) → Decidable (a = b)
  | .null, .null => isTrue rfl
  | .null, .bool _ => isFalse (fun h => Json.noConfusion h)
  | .null, .num _ => isFalse (fun h => Json.noConfusion h)
  | .null, .str _ => isFalse (fun h => Json.noConfusion h)
  | .null, .arr _ => isFalse (fun h => Json.noConfusion h)
  | .null, .obj _ => isFalse (fun h => Json.noConfusion h)
  | .bool _, .null => isFalse (fun h => Json.noConfusion h)
  | .bool a, .bool b =>
    if h : a = b then isTrue (by rw [h]) else
      isFalse (fun hc => h (Json.bool.inj hc))
  | .bool _, .num _ => isFalse (fun h => Json.noConfusion h)
  | .bool _, .str _ => isFalse (fun h => Json.noConfusion h)
  | .bool _, .arr _ => isFalse (fun h => Json.noConfusion h)
  | .bool _, .obj _ => isFalse (fun h => Json.noConfusion h)
  | .num _, .null => isFalse (fun h => Json.noConfusion h)
  | .num _, .bool _ => isFalse (fun h => Json.noConfusion h)
  | .num a, .num b =>
    if h : a = b then isTrue (by rw [h]) else
      isFalse (fun hc => h (Json.num.inj hc))
  | .num _, .str _ => isFalse (fun h => Json.noConfusion h)
  | .num _, .arr _ => isFalse (fun h => Json.noConfusion h)
  | .num _, .obj _ => isFalse (fun h => Json.noConfusion h)
  | .str _, .null => isFalse (fun h => Json.noConfusion h)
  | .str _, .bool _ => isFalse (fun h => Json.noConfusion h)
  | .str _, .num _ => isFalse (fun h => Json.noConfusion h)
  | .str a, .str b =>
    if h : a = b then isTrue (by rw [h]) else
      isFalse (fun hc => h (Json.str.inj hc))
  | .str _, .arr _ => isFalse (fun h => Json.noConfusion h)
  | .str _, .obj _ => isFalse (fun h => Json.noConfusion h)
  | .arr _, .null => isFalse (fun h => Json.noConfusion h)
  | .arr _, .bool _ => isFalse (fun h => Json.noConfusion h)
  | .arr _, .num _ => isFalse (fun h => Json.noConfusion h)
  | .arr _, .str _ => isFalse (fun h => Json.noConfusion h)
  | .arr a, .arr b =>
    match Json.decEqList a b with
    | isTrue h => isTrue (by rw [h])
    | isFalse h => isFalse (fun hc => h (Json.arr.inj hc))
  | .arr _, .obj _ => isFalse (fun h => Json.noConfusion h)
  | .obj _, .null => isFalse (fun h => Json.noConfusion h)
  | .obj _, .bool _ => isFalse (fun h => Json.noConfusion h)
  | .obj _, .num _ => isFalse (fun h => Json.noConfusion h)
  | .obj _, .str _ => isFalse (fun h => Json.noConfusion h)
  | .obj _, .arr _ => isFalse (fun h => Json.noConfusion h)
  | .obj a, .obj b =>
    match Json.decEqFields a b with
    | isTrue h => isTrue (by rw [h])
    | isFalse h => isFalse (fun hc => h (Json.obj.inj hc))

def Json.decEqList : (a b : List Json) → Decidable (a = b)
  | [], [] => isTrue rfl
  | [], _ :: _ => isFalse (fun h => List.noConfusion h)
  | _ :: _, [] => isFalse (fun h => List.noConfusion h)
  | a :: as, b :: bs =>
    match Json.decEq a b, Json.decEqList as bs with
    | isTrue h1, isTrue h2 => isTrue (by rw [h1, h2])
    | isFalse h1, _ => isFalse (fun hc => h1 (List.cons.inj hc).1)
    | _, isFalse h2 => isFalse (fun hc => h2 (List.cons.inj hc).2)

def Json.decEqFields : (a b : List (String × Json)) → Decidable (a = b)
  | [], [] => isTrue rfl
  | [], _ :: _ => isFalse (fun h => List.noConfusion h)
  | _ :: _, [] => isFalse (fun h => List.noConfusion h)
  | (k, a) :: as, (l, b) :: bs =>
    if hk : k = l then
      match Json.decEq a b, Json.decEqFields as bs with
      | isTrue h1, isTrue h2 => isTrue (by rw [hk, h1, h2])
      | isFalse h1, _ =>
        isFalse (fun hc => h1 (congrArg Prod.snd (List.cons.inj hc).1))
      | _, isFalse h2 => isFalse (fun hc => h2 (List.cons.inj hc).2)
    else isFalse (fun hc => hk (congrArg Prod.fst (List.cons.inj hc).1))

end

instance : DecidableEq Json := Json.decEq

/-- True for the JSON insignificant-whitespace characters. -/
def isWsChar (c : Char) : Bool :=
  c = ' ' || c = '\t' || c = '\n' || c = '\r'

/-- Drop leading whitespace, as the decoder does between tokens. -/
def skipWs : List Char → List Char
  | [] => []
  | c :: r => if isWsChar c then skipWs r else c :: r

/-- Unescape the character after a backslash in a string literal.  The
self-representing escapes (quote, backslash, slash) map to themselves; the
letter escapes map to their control characters. -/
def unescapeChar (e : Char) : Option Char :=
  if e = '"' ∨ e = '\\' ∨ e = '/' then some e
  else if e = 'n' then some '\n'
  else if e = 't' then some '\t'
  else if e = 'r' then some '\r'
  else if e = 'b' then some (Char.ofNat 8)
  else if e = 'f' then some (Char.ofNat 12)
  else none

mutual

/-- Consume a string literal's body after the opening quote, up to and
including the closing quote. -/
def parseStrBody : List Char → Option (List Char × List Char)
  | [] => none
  | c :: r =>
    if c = '"' then some ([], r)
    else if c = '\\' then parseEscaped r
    else
      match parseStrBody r with
      | some (cs, rest) => some (c :: cs, rest)
      | none => none

/-- Continue a string literal's body after a backslash. -/
def parseEscaped : List Char → Option (List Char × List Char)
  | [] => none
  | e :: r =>
    match unescapeChar e with
    | some c2 =>
      match parseStrBody r with
      | some (cs, rest) => some (c2 :: cs, rest)
      | none => none
    | none => none

end

/-- Consume an expected literal continuation (for `null`, `true`, `false`). -/
def expectChars : List Char → List Char → Option (List Char)
  | [], s => some s
  | _ :: _, [] => none
  | c :: p, d :: r => if d = c then expectChars p r else none

/-- Maximal run of decimal digits at the head of the input. -/
def takeDigits : List Char → List Char × List Char
  | [] => ([], [])
  | c :: r =>
    if c.isDigit then
      match takeDigits r with
      | (ds, rest) => (c :: ds, rest)
    else ([], c :: r)

/-- Value of a digit run, most significant first. -/
def digitsToNat (acc : Nat) : List Char → Nat
  | [] => acc
  | c :: r => digitsToNat (acc * 10 + (c.toNat - 48)) r

mutual

/-- Parse one JSON value from the head of the input, returning the value and
the unread remainder.  Fuel decreases on every recursive call; any fuel of
at least the input length plus one suffices. -/
def parseVal : Nat → List Char → Option (Json × List Char)
  | 0, _ => none
  | fuel + 1, s =>
    match skipWs s with
    | [] => none
    | c :: r =>
      if c = 'n' then
        match expectChars ['u', 'l', 'l'] r with
        | some rest => some (.null, rest)
        | none => none
      else if c = 't' then
        match expectChars ['r', 'u', 'e'] r with
        | some rest => some (.bool true, rest)
        | none => none
      else if c = 'f' then
        match expectChars ['a', 'l', 's', 'e'] r with
        | some rest => some (.bool false, rest)
        | none => none
      else if c = '"' then
        match parseStrBody r with
        | some (cs, rest) => some (.str (String.mk cs), rest)
        | none => none
      else if c = '[' then
        match skipWs r with
        | [] => none
        | d :: r1 =>
          if d = ']' then some (.arr [], r1)
          else
            match parseVal fuel r with
            | some (v, r2) =>
              match parseArrRest fuel r2 with
              | some (vs, rest) => some (.arr (v :: vs), rest)
              | none => none
            | none => none
      else if c = '{' then
        match skipWs r with
        | [] => none
        | d :: r1 =>
          if d = '}' then some (.obj [], r1)
          else
            match parseMember fuel r with
            | some (m, r2) =>
              match parseObjRest fuel r2 with
              | some (ms, rest) => some (.obj (m :: ms), rest)
              | none => none
            | none => none
      else if c = '-' then
        match takeDigits r with
        | ([], _) => none
        | (ds, rest) => some (.num (-(digitsToNat 0 ds : Int)), rest)
      else if c.isDigit then
        match takeDigits (c :: r) with
        | (ds, rest) => some (.num (digitsToNat 0 ds), rest)
      else none

/-- After one array element: a comma and a further element, or the closing
bracket. -/
def parseArrRest : Nat → List Char → Option (List Json × List Char)
  | 0, _ => none
  | fuel + 1, s =>
    match skipWs s with
    | [] => none
    | c :: r =>
      if c = ']' then some ([], r)
      else if c = ',' then
        match parseVal fuel r with
        | some (v, r1) =>
          match parseArrRest fuel r1 with
          | some (vs, rest) => some (v :: vs, rest)
          | none => none
        | none => none
      else none

/-- One `"key": value` object member. -/
def parseMember : Nat → List Char → Option ((String × Json) × List Char)
  | 0, _ => none
  | fuel + 1, s =>
    match skipWs s with
    | [] => none
    | c :: r =>
      if c = '"' then
        match parseStrBody r with
        | some (cs, r1) =>
          match skipWs r1 with
          | [] => none
          | d :: r2 =>
            if d = ':' then
              match parseVal fuel r2 with
              | some (v, r3) => some ((String.mk cs, v), r3)
              | none => none
            else none
        | none => none
      else none

/-- After one object member: a comma and a further member, or the closing
brace. -/
def parseObjRest : Nat → List Char → Option (List (String × Json) × List Char)
  | 0, _ => none
  | fuel + 1, s =>
    match skipWs s with
    | [] => none
    | c :: r =>
      if c = '}' then some ([], r)
      else if c = ',' then
        match parseMember fuel r with
        | some (m, r1) =>
          match parseObjRest fuel r1 with
          | some (ms, rest) => some (m :: ms, rest)
          | none => none
        | none => none
      else none

end

/-- Model of `json.Decoder.Decode`: read the first complete JSON value from
the body; everything after it is left unread and ignored. -/
def decodeOne (body : List Char) : Option (Json × List Char) :=
  parseVal (body.length + 1) body

/-- True exactly for number values, whose textual end is determined by
lookahead rather than by a closing delimiter. -/
def Json.isNum : Json → Bool
  | .num _ => true
  | _ => false

/-! ### Go map semantics

`map[string]any` values are unordered with unique keys; `json.Marshal` writes
their entries sorted by key.  The model keeps them as association lists in the
canonical (key-sorted, duplicate-free, later-occurrence-wins) form that
`encoding/json` produces when decoding an object into a map. -/

/-- Insert into a key-sorted association list, replacing an existing binding
(a later duplicate key in the source object wins, as for a Go map store). -/
def insertByKey (k : String) (v : Json) :
    List (String × Json) → List (String × Json)
  | [] => [(k, v)]
  | (k1, v1) :: rest =>
    if k = k1 then (k, v) :: rest
    else if k < k1 then (k, v) :: (k1, v1) :: rest
    else (k1, v1) :: insertByKey k v rest

mutual

/-- Decode of a JSON value into Go `any`: objects become maps (canonical
form), arrays become slices, scalars stay as they are. -/
def canonVal : Json → Json
  | .obj l => .obj (canonObj l [])
  | .arr l => .arr (canonArr l)
  | .null => .null
  | .bool b => .bool b
  | .num n => .num n
  | .str s => .str s

def canonArr : List Json → List Json
  | [] => []
  | v :: r => canonVal v :: canonArr r

def canonObj (l : List (String × Json)) (acc : List (String × Json)) :
    List (String × Json) :=
  match l with
  | [] => acc
  | (k, v) :: r => canonObj r (insertByKey k (canonVal v) acc)

end

/-! ### The event model (internal/models/models.go) -/

/-- `models.Event`.  `title` is a nullable pointer; `data` is a
`map[string]any` (`none` models the nil map). -/
structure Event where
  tsUtc : Int
  tsIso : String
  url : String
  title : Option String
  type : String
  data : Option (List (String × Json))
deriving DecidableEq

/-- `models.Batch`. -/
structure Batch where
  events : List Event
deriving DecidableEq

/-- The zero `Event`, the starting point of struct decoding. -/
def defaultEvent : Event :=
  { tsUtc := 0, tsIso := "", url := "", title := none, type := "", data := none }

/-- ASCII case folding of one character, as Go's field-name matching does. -/
def foldChar (c : Char) : Char :=
  if 'A' ≤ c && c ≤ 'Z' then Char.ofNat (c.toNat + 32) else c

/-- Case-folded object key, for `encoding/json`'s case-insensitive matching
of object keys to struct field tags. -/
def foldKey (s : String) : String :=
  String.mk (s.data.map foldChar)

/-- Smallest `int64`. -/
def i64Min : Int := -(2 ^ 63)

/-- One past the largest `int64`. -/
def i64Max : Int := 2 ^ 63

/-- Apply one object member to a partially decoded `Event`, following
`encoding/json`: keys match tags case-insensitively, unknown keys are
ignored, `null` resets pointer/map fields to nil and is a no-op on string
and integer fields, and a wrong-typed value is a decode error. -/
def setField (e : Event) (k : String) (v : Json) : Option Event :=
  match foldKey k with
  | "ts_utc" =>
    match v with
    | .num n => if i64Min ≤ n ∧ n < i64Max then some { e with tsUtc := n } else none
    | .null => some e
    | _ => none
  | "ts_iso" =>
    match v with
    | .str s => some { e with tsIso := s }
    | .null => some e
    | _ => none
  | "url" =>
    match v with
    | .str s => some { e with url := s }
    | .null => some e
    | _ => none
  | "title" =>
    match v with
    | .str s => some { e with title := some s }
    | .null => some { e with title := none }
    | _ => none
  | "type" =>
    match v with
    | .str s => some { e with type := s }
    | .null => some e
    | _ => none
  | "data" =>
    match v with
    | .obj l => some { e with data := some (canonObj l []) }
    | .null => some { e with data := none }
    | _ => none
  | _ => some e

/-- Decode one JSON value into an `Event` (an object updates the zero value
field by field; `null` into a struct is a no-op, leaving the zero value). -/
def eventOfJson : Json → Option Event
  | .obj l => l.foldlM (fun e m => setField e m.1 m.2) defaultEvent
  | .null => some defaultEvent
  | _ => none

/-- Decode one JSON value into `[]Event` (`null` is the nil slice). -/
def eventsOfJson : Json → Option (List Event)
  | .arr l => l.mapM eventOfJson
  | .null => some []
  | _ => none

/-- Decode one JSON value into a `Batch` (`null` or an absent `events` key
give the empty batch; any non-object, non-null document is an error). -/
def batchOfJson : Json → Option Batch
  | .obj l =>
    (l.foldlM
      (fun evs m =>
        if foldKey m.1 = "events" then eventsOfJson m.2 else some evs)
      ([] : List Event)).map Batch.mk
  | .null => some (Batch.mk [])
  | _ => none

/-- The handler's body decoding: the first JSON value of the body, decoded
as a `Batch`; trailing bytes after that value are ignored. -/
def decodeBatch (body : List Char) : Option Batch :=
  match decodeOne body with
  | some (v, _) => batchOfJson v
  | none => none

/-- `json.Marshal` of an `Event`: fields in struct order under their tag
names; a nil `title` pointer and a nil `data` map marshal as `null`. -/
def encodeEvent (e : Event) : Json :=
  .obj
    [("ts_utc", .num e.tsUtc),
     ("ts_iso", .str e.tsIso),
     ("url", .str e.url),
     ("title", match e.title with | some t => .str t | none => .null),
     ("type", .str e.type),
     ("data", match e.data with | some m => .obj m | none => .null)]

/-- `json.Marshal` of a `Batch`. -/
def encodeBatch (b : Batch) : Json :=
  .obj [("events", .arr (b.events.map encodeEvent))]

/-- Lookup of a key in an encoded object (first occurrence). -/
def objLookup (k : String) : Json → Option Json
  | .obj l => (l.find? (fun m => m.1 = k)).map Prod.snd
  | _ => none

/-! ### The persistence store (internal/database/database.go) -/

/-- The members of the `validEventTypes` set built in `NewDatabase`. -/
def validEventTypes : List String :=
  ["navigate", "visible_text", "click", "input", "scroll", "focus"]

/-- `Database.ValidateEvent`: four checks in order, returning the message of
the first failure. -/
def validateEvent (e : Event) : Option String :=
  if e.url = "" then some "URL cannot be empty"
  else if e.type = "" then some "Type cannot be empty"
  else if e.type ∉ validEventTypes then some ("invalid event type: " ++ e.type)
  else if e.tsUtc ≤ 0 then some "timestamp must be positive"
  else none

/-- One row of the `events` table. -/
structure Row where
  id : Nat
  tsUtc : Int
  tsIso : String
  url : String
  title : Option String
  type : String
  dataJson : Json
deriving DecidableEq

/-- The `events` table: its rows plus the engine's next row identifier
(`INTEGER PRIMARY KEY` assignment; append-only, so max-rowid-plus-one is a
monotone counter). -/
structure Store where
  nextId : Nat
  rows : List Row
deriving DecidableEq

/-- `json.Marshal(event.Data)` as stored in `data_json` (a nil map marshals
as `null`, which SQLite's `json(?)` accepts). -/
def marshalData : Option (List (String × Json)) → Json
  | none => .null
  | some m => .obj m

/-- The row written for one event. -/
def rowOfEvent (id : Nat) (e : Event) : Row :=
  { id := id, tsUtc := e.tsUtc, tsIso := e.tsIso, url := e.url,
    title := e.title, type := e.type, dataJson := marshalData e.data }

/-- Fault injection for the storage engine: which of the transaction's
steps fail (for example on lock contention or I/O errors). -/
structure DbFaults where
  beginFails : Bool
  prepareFails : Bool
  execFails : Nat → Bool
  commitFails : Bool

/-- A fault-free engine. -/
def noFaults : DbFaults :=
  { beginFails := false, prepareFails := false,
    execFails := fun _ => false, commitFails := false }

/-- Staging one `statement.Exec` inside the open transaction. -/
def execInsert (txn : Store) (e : Event) : Store :=
  { nextId := txn.nextId + 1, rows := txn.rows ++ [rowOfEvent txn.nextId e] }

/-- The loop of `InsertEvents`: validate each event in batch order and stage
its insert into the transaction; the first validation failure or failed
`Exec` (injected fault, or the schema's CHECK on `type` as the second line
of defence) abandons the transaction. -/
def insertLoop (f : DbFaults) (txn : Store) (i : Nat) :
    List Event → Except String Store
  | [] => .ok txn
  | e :: rest =>
    match validateEvent e with
    | some msg => .error ("invalid event: " ++ msg)
    | none =>
      if f.execFails i ∨ e.type ∉ validEventTypes then
        .error "failed to execute statement"
      else insertLoop f (execInsert txn e) (i + 1) rest

/-- `Database.InsertEvents`: begin a transaction, validate and stage each
event, commit at the end; every failure path rolls the transaction back, so
the committed store is returned unchanged alongside the error. -/
def insertEvents (f : DbFaults) (st : Store) (events : List Event) :
    Except String Unit × Store :=
  if f.beginFails then (.error "failed to begin transaction", st)
  else if f.prepareFails then (.error "failed to prepare statement", st)
  else
    match insertLoop f st 0 events with
    | .error msg => (.error msg, st)
    | .ok txn =>
      if f.commitFails then (.error "failed to commit transaction", st)
      else (.ok (), txn)

/-! ### The ingestion endpoint (internal/server/server.go) -/

/-- An HTTP response as the handler writes it (`http.Error` appends a
newline to its message). -/
structure HttpResponse where
  status : Nat
  body : String
deriving DecidableEq

/-- `Server.handleEvents`: the response, the committed store afterwards, and
whether the store's write path was invoked at all. -/
def handleEvents (f : DbFaults) (method : String) (body : List Char)
    (st : Store) : HttpResponse × Store × Bool :=
  if method ≠ "POST" then
    ({ status := 405, body := "POST only\n" }, st, false)
  else
    match decodeBatch body with
    | none => ({ status := 400, body := "Invalid JSON format\n" }, st, false)
    | some b =>
      if b.events = [] then ({ status := 204, body := "" }, st, false)
      else
        match insertEvents f st b.events with
        | (.error _, st1) =>
          ({ status := 500, body := "Failed to store events\n" }, st1, true)
        | (.ok _, st1) => ({ status := 204, body := "" }, st1, true)

/-! ### Opening the store (NewDatabase / createTables and the entry point)

`sql.Open` is lazy, so the first statement of `createTables` is what opens
the database file.  The engine behavior is modelled from SQLite: connecting
creates the database file when absent, but fails with "unable to open
database file" when the file's parent directory does not exist, and
`CREATE TABLE IF NOT EXISTS` / `CREATE INDEX IF NOT EXISTS` are no-ops
(never errors) when the object already exists. -/

/-- The schema objects `createTables` creates, in statement order. -/
def schemaObjects : List String :=
  ["events", "idx_events_ts", "idx_events_type", "idx_events_url"]

/-- `CREATE ... IF NOT EXISTS`: add the object unless it is already there. -/
def createIfNotExists (obj : String) (schema : List String) : List String :=
  if obj ∈ schema then schema else schema ++ [obj]

/-- `createTables`: the four DDL statements of the script, in order. -/
def createTables (schema : List String) : List String :=
  schemaObjects.foldl (fun s o => createIfNotExists o s) schema

/-- The filesystem and engine state an open touches: existing directories,
and database files (keyed by directory and file name) with their schema. -/
structure Fs where
  dirs : List String
  files : List ((String × String) × List String)
deriving DecidableEq

/-- The schema of the database file at a path, if the file exists. -/
def getSchema (fs : Fs) (dir file : String) : Option (List String) :=
  (fs.files.find? (fun p => p.1 = (dir, file))).map Prod.snd

/-- Store a schema for a path (replacing any previous entry). -/
def putSchema (fs : Fs) (dir file : String) (schema : List String) : Fs :=
  { fs with
    files := ((dir, file), schema) ::
      fs.files.filter (fun p => p.1 ≠ (dir, file)) }

/-- First use of the lazy connection: SQLite creates the database file if
absent, but errors when its parent directory does not exist. -/
def sqliteConnect (fs : Fs) (dir file : String) :
    Except String (Fs × List String) :=
  if dir ∈ fs.dirs then
    match getSchema fs dir file with
    | some schema => .ok (fs, schema)
    | none => .ok (putSchema fs dir file [], [])
  else .error "unable to open database file"

/-- `database.NewDatabase`: open the connection and run `createTables`; any
failure there is returned (wrapped) and the handle is closed. -/
def newDatabase (fs : Fs) (dir file : String) : Except String Fs :=
  match sqliteConnect fs dir file with
  | .error e => .error ("failed to create database tables: " ++ e)
  | .ok (fs1, schema) => .ok (putSchema fs1 dir file (createTables schema))

/-- `os.MkdirAll`: create the directory (and, in the model's flat view, its
parents) if absent; existing directories are left alone. -/
def mkdirAll (fs : Fs) (dir : String) : Fs :=
  if dir ∈ fs.dirs then fs else { fs with dirs := dir :: fs.dirs }

/-- The entry point's storage setup (cmd/browsetrace-agent/main.go): create
the application directory, then open the database inside it. -/
def mainOpenStore (fs : Fs) (dir file : String) : Except String Fs :=
  newDatabase (mkdirAll fs dir) dir file

/-- The rows `InsertEvents` stages for a batch, identifiers counting up from
`base` in batch order. -/
def rowsFor (base : Nat) : List Event → List Row
  | [] => []
  | e :: rest => rowOfEvent base e :: rowsFor (base + 1) rest

/-- Well-formedness of the `events` table: row identifiers strictly
increase down the table and stay below the engine's next identifier. -/
def StoreWF (st : Store) : Prop :=
  (st.rows.map Row.id).Pairwise (· < ·) ∧ ∀ r ∈ st.rows, r.id < st.nextId

/-- A canonical Go map image: keys strictly ascending. -/
abbrev SortedObj (l : List (String × Json)) : Prop :=
  l.Pairwise (fun p q => p.1 < q.1)

/-- Every stored value is itself in decoded (canonical) form. -/
abbrev CanonVals (l : List (String × Json)) : Prop :=
  ∀ p ∈ l, canonVal p.2 = p.2

/-- The invariant `encoding/json` decoding guarantees for an `Event`: the
timestamp fits `int64`, and the data map (when non-nil) is in the
canonical form Go map decoding produces. -/
abbrev EventWF (e : Event) : Prop :=
  (i64Min ≤ e.tsUtc ∧ e.tsUtc < i64Max) ∧
  ∀ m, e.data = some m → SortedObj m ∧ CanonVals m

/-! ### Decoder laws

The decoder reads one value and stops at that value's final character.  The
lemmas below make that precise: a successful parse is insensitive to extra
fuel, and (unless the value is a bare number, whose end is found by
lookahead) insensitive to bytes appended after its unread remainder. -/

theorem skipWs_append_cons {s : List Char} {c : Char} {r : List Char}
    (t : List Char) (h : skipWs s = c :: r) :
    skipWs (s ++ t) = c :: (r ++ t) := by
  induction s with
  | nil => simp [skipWs] at h
  | cons a s ih =>
    simp only [skipWs] at h
    by_cases ha : isWsChar a = true
    · simp only [ha, if_true] at h
      simp only [List.cons_append, skipWs, ha, if_true]
      exact ih h
    · simp only [ha, if_false, Bool.false_eq_true] at h
      cases h
      simp [List.cons_append, skipWs, ha]

theorem expectChars_append :
    ∀ (p s : List Char) (r t : List Char), expectChars p s = some r →
      expectChars p (s ++ t) = some (r ++ t)
  | [], s, r, t => by
    intro h
    simp only [expectChars, Option.some.injEq] at h
    subst h
    rfl
  | _ :: _, [], r, t => by
    intro h
    simp [expectChars] at h
  | c :: p, d :: s1, r, t => by
    intro h
    rw [List.cons_append]
    simp only [expectChars] at h ⊢
    by_cases hd : d = c
    · rw [if_pos hd] at h ⊢
      exact expectChars_append p s1 r t h
    · rw [if_neg hd] at h
      cases h

mutual

theorem parseStrBody_append :
    ∀ (s cs r t : List Char), parseStrBody s = some (cs, r) →
      parseStrBody (s ++ t) = some (cs, r ++ t)
  | [], cs, r, t => by
    intro h
    simp [parseStrBody] at h
  | c :: s1, cs, r, t => by
    intro h
    rw [List.cons_append]
    simp only [parseStrBody] at h ⊢
    by_cases hq : c = '"'
    · rw [if_pos hq] at h ⊢
      cases h
      rfl
    · rw [if_neg hq] at h ⊢
      by_cases hb : c = '\\'
      · rw [if_pos hb] at h ⊢
        exact parseEscaped_append s1 cs r t h
      · rw [if_neg hb] at h ⊢
        cases hp : parseStrBody s1 with
        | none => simp [hp] at h
        | some p =>
          obtain ⟨cs1, rest⟩ := p
          simp only [hp] at h
          simp at h
          obtain ⟨rfl, rfl⟩ := h
          rw [parseStrBody_append s1 cs1 rest t hp]

theorem parseEscaped_append :
    ∀ (s cs r t : List Char), parseEscaped s = some (cs, r) →
      parseEscaped (s ++ t) = some (cs, r ++ t)
  | [], cs, r, t => by
    intro h
    simp [parseEscaped] at h
  | e :: s1, cs, r, t => by
    intro h
    rw [List.cons_append]
    simp only [parseEscaped] at h ⊢
    cases hu : unescapeChar e with
    | none => simp [hu] at h
    | some c2 =>
      simp only [hu] at h ⊢
      cases hp : parseStrBody s1 with
      | none => simp [hp] at h
      | some p =>
        obtain ⟨cs1, rest⟩ := p
        simp only [hp] at h
        simp at h
        obtain ⟨rfl, rfl⟩ := h
        rw [parseStrBody_append s1 cs1 rest t hp]

end

theorem takeDigits_append_cons :
    ∀ (s : List Char) (ds : List Char) (c : Char) (r t : List Char),
      takeDigits s = (ds, c :: r) →
      takeDigits (s ++ t) = (ds, c :: (r ++ t)) := by
  intro s
  induction s with
  | nil =>
    intro ds c r t h
    simp only [takeDigits, Prod.mk.injEq] at h
    cases h.2
  | cons a s1 ih =>
    intro ds c r t h
    rw [List.cons_append]
    simp only [takeDigits] at h ⊢
    by_cases ha : a.isDigit = true
    · rw [if_pos ha] at h ⊢
      cases htd : takeDigits s1 with
      | mk ds1 rest1 =>
        rw [htd] at h
        simp only [Prod.mk.injEq] at h
        obtain ⟨rfl, h2⟩ := h
        rw [ih ds1 c r t (by rw [htd, h2])]
    · rw [if_neg ha] at h ⊢
      simp only [Prod.mk.injEq] at h
      obtain ⟨rfl, h2⟩ := h
      cases h2
      simp

theorem parseArrRest_nil (fuel : Nat) : parseArrRest fuel [] = none := by
  cases fuel <;> rfl

theorem parseObjRest_nil (fuel : Nat) : parseObjRest fuel [] = none := by
  cases fuel <;> rfl

/-- Appending bytes after the unread remainder never changes what the
parser read: a successful parse of `s` leaving `r` parses `s ++ t` leaving
`r ++ t`.  For a bare number at the very end of the input (`r = []`) this
can fail — the digits would run on — hence the side condition. -/
theorem parse_append (fuel : Nat) :
    (∀ s v r t, parseVal fuel s = some (v, r) →
      (v.isNum = false ∨ r ≠ []) →
      parseVal fuel (s ++ t) = some (v, r ++ t)) ∧
    (∀ s vs r t, parseArrRest fuel s = some (vs, r) →
      parseArrRest fuel (s ++ t) = some (vs, r ++ t)) ∧
    (∀ s ms r t, parseObjRest fuel s = some (ms, r) →
      parseObjRest fuel (s ++ t) = some (ms, r ++ t)) ∧
    (∀ s m r t, parseMember fuel s = some (m, r) →
      (m.2.isNum = false ∨ r ≠ []) →
      parseMember fuel (s ++ t) = some (m, r ++ t)) := by
  induction fuel with
  | zero =>
    refine ⟨?_, ?_, ?_, ?_⟩
    · intro s v r t h
      simp [parseVal] at h
    · intro s vs r t h
      simp [parseArrRest] at h
    · intro s ms r t h
      simp [parseObjRest] at h
    · intro s m r t h
      simp [parseMember] at h
  | succ fuel ih =>
    obtain ⟨ihv, iha, iho, ihm⟩ := ih
    refine ⟨?_, ?_, ?_, ?_⟩
    · intro s v r t h hc
      simp only [parseVal] at h ⊢
      cases hw : skipWs s with
      | nil => simp [hw] at h
      | cons c r0 =>
        simp only [skipWs_append_cons t hw]
        simp only [hw] at h
        by_cases hn : c = 'n'
        · rw [if_pos hn] at h ⊢
          cases he : expectChars ['u', 'l', 'l'] r0 with
          | none => simp [he] at h
          | some rest =>
            simp only [he] at h
            simp at h
            obtain ⟨rfl, rfl⟩ := h
            simp [expectChars_append _ _ _ t he]
        · rw [if_neg hn] at h ⊢
          by_cases htr : c = 't'
          · rw [if_pos htr] at h ⊢
            cases he : expectChars ['r', 'u', 'e'] r0 with
            | none => simp [he] at h
            | some rest =>
              simp only [he] at h
              simp at h
              obtain ⟨rfl, rfl⟩ := h
              simp [expectChars_append _ _ _ t he]
          · rw [if_neg htr] at h ⊢
            by_cases hf : c = 'f'
            · rw [if_pos hf] at h ⊢
              cases he : expectChars ['a', 'l', 's', 'e'] r0 with
              | none => simp [he] at h
              | some rest =>
                simp only [he] at h
                simp at h
                obtain ⟨rfl, rfl⟩ := h
                simp [expectChars_append _ _ _ t he]
            · rw [if_neg hf] at h ⊢
              by_cases hq : c = '"'
              · rw [if_pos hq] at h ⊢
                cases hp : parseStrBody r0 with
                | none => simp [hp] at h
                | some p =>
                  obtain ⟨cs, rest⟩ := p
                  simp only [hp] at h
                  simp at h
                  obtain ⟨rfl, rfl⟩ := h
                  simp [parseStrBody_append r0 cs rest t hp]
              · rw [if_neg hq] at h ⊢
                by_cases hbk : c = '['
                · rw [if_pos hbk] at h ⊢
                  cases hw2 : skipWs r0 with
                  | nil => simp [hw2] at h
                  | cons d r1 =>
                    simp only [skipWs_append_cons t hw2]
                    simp only [hw2] at h
                    by_cases hd : d = ']'
                    · rw [if_pos hd] at h ⊢
                      simp at h
                      obtain ⟨rfl, rfl⟩ := h
                      simp
                    · rw [if_neg hd] at h ⊢
                      cases hv1 : parseVal fuel r0 with
                      | none => simp [hv1] at h
                      | some p =>
                        obtain ⟨v1, r2⟩ := p
                        simp only [hv1] at h
                        cases ha1 : parseArrRest fuel r2 with
                        | none => simp [ha1] at h
                        | some q =>
                          obtain ⟨vs, rest⟩ := q
                          simp only [ha1] at h
                          simp at h
                          obtain ⟨rfl, rfl⟩ := h
                          have hr2 : r2 ≠ [] := by
                            intro hnil
                            rw [hnil, parseArrRest_nil] at ha1
                            cases ha1
                          simp [ihv r0 v1 r2 t hv1 (Or.inr hr2),
                            iha r2 vs rest t ha1]
                · rw [if_neg hbk] at h ⊢
                  by_cases hbr : c = '{'
                  · rw [if_pos hbr] at h ⊢
                    cases hw2 : skipWs r0 with
                    | nil => simp [hw2] at h
                    | cons d r1 =>
                      simp only [skipWs_append_cons t hw2]
                      simp only [hw2] at h
                      by_cases hd : d = '}'
                      · rw [if_pos hd] at h ⊢
                        simp at h
                        obtain ⟨rfl, rfl⟩ := h
                        simp
                      · rw [if_neg hd] at h ⊢
                        cases hm1 : parseMember fuel r0 with
                        | none => simp [hm1] at h
                        | some p =>
                          obtain ⟨m1, r2⟩ := p
                          simp only [hm1] at h
                          cases ho1 : parseObjRest fuel r2 with
                          | none => simp [ho1] at h
                          | some q =>
                            obtain ⟨ms, rest⟩ := q
                            simp only [ho1] at h
                            simp at h
                            obtain ⟨rfl, rfl⟩ := h
                            have hr2 : r2 ≠ [] := by
                              intro hnil
                              rw [hnil, parseObjRest_nil] at ho1
                              cases ho1
                            simp [ihm r0 m1 r2 t hm1 (Or.inr hr2),
                              iho r2 ms rest t ho1]
                  · rw [if_neg hbr] at h ⊢
                    by_cases hmn : c = '-'
                    · rw [if_pos hmn] at h ⊢
                      cases htd : takeDigits r0 with
                      | mk ds rest =>
                        simp only [htd] at h
                        cases ds with
                        | nil => simp at h
                        | cons d0 ds1 =>
                          simp at h
                          obtain ⟨rfl, rfl⟩ := h
                          have hrest : rest ≠ [] := by
                            rcases hc with hfalse | hne
                            · simp [Json.isNum] at hfalse
                            · exact hne
                          cases rest with
                          | nil => exact absurd rfl hrest
                          | cons c2 r3 =>
                            simp [takeDigits_append_cons r0 (d0 :: ds1) c2
                              r3 t htd]
                    · rw [if_neg hmn] at h ⊢
                      by_cases hdg : c.isDigit = true
                      · rw [if_pos hdg] at h ⊢
                        cases htd : takeDigits (c :: r0) with
                        | mk ds rest =>
                          simp only [htd] at h
                          simp at h
                          obtain ⟨rfl, rfl⟩ := h
                          have hrest : rest ≠ [] := by
                            rcases hc with hfalse | hne
                            · simp [Json.isNum] at hfalse
                            · exact hne
                          cases rest with
                          | nil => exact absurd rfl hrest
                          | cons c2 r3 =>
                            have htd2 : takeDigits (c :: (r0 ++ t)) =
                                (ds, c2 :: (r3 ++ t)) := by
                              have := takeDigits_append_cons (c :: r0) ds c2
                                r3 t htd
                              simpa using this
                            simp [htd2]
                      · rw [if_neg hdg] at h
                        cases h
    · intro s vs r t h
      simp only [parseArrRest] at h ⊢
      cases hw : skipWs s with
      | nil => simp [hw] at h
      | cons c r0 =>
        simp only [skipWs_append_cons t hw]
        simp only [hw] at h
        by_cases hb : c = ']'
        · rw [if_pos hb] at h ⊢
          simp at h
          obtain ⟨rfl, rfl⟩ := h
          simp
        · rw [if_neg hb] at h ⊢
          by_cases hcm : c = ','
          · rw [if_pos hcm] at h ⊢
            cases hv1 : parseVal fuel r0 with
            | none => simp [hv1] at h
            | some p =>
              obtain ⟨v1, r1⟩ := p
              simp only [hv1] at h
              cases ha1 : parseArrRest fuel r1 with
              | none => simp [ha1] at h
              | some q =>
                obtain ⟨vs1, rest⟩ := q
                simp only [ha1] at h
                simp at h
                obtain ⟨rfl, rfl⟩ := h
                have hr1 : r1 ≠ [] := by
                  intro hnil
                  rw [hnil, parseArrRest_nil] at ha1
                  cases ha1
                simp [ihv r0 v1 r1 t hv1 (Or.inr hr1), iha r1 vs1 rest t ha1]
          · rw [if_neg hcm] at h
            cases h
    · intro s ms r t h
      simp only [parseObjRest] at h ⊢
      cases hw : skipWs s with
      | nil => simp [hw] at h
      | cons c r0 =>
        simp only [skipWs_append_cons t hw]
        simp only [hw] at h
        by_cases hb : c = '}'
        · rw [if_pos hb] at h ⊢
          simp at h
          obtain ⟨rfl, rfl⟩ := h
          simp
        · rw [if_neg hb] at h ⊢
          by_cases hcm : c = ','
          · rw [if_pos hcm] at h ⊢
            cases hm1 : parseMember fuel r0 with
            | none => simp [hm1] at h
            | some p =>
              obtain ⟨m1, r1⟩ := p
              simp only [hm1] at h
              cases ho1 : parseObjRest fuel r1 with
              | none => simp [ho1] at h
              | some q =>
                obtain ⟨ms1, rest⟩ := q
                simp only [ho1] at h
                simp at h
                obtain ⟨rfl, rfl⟩ := h
                have hr1 : r1 ≠ [] := by
                  intro hnil
                  rw [hnil, parseObjRest_nil] at ho1
                  cases ho1
                simp [ihm r0 m1 r1 t hm1 (Or.inr hr1), iho r1 ms1 rest t ho1]
          · rw [if_neg hcm] at h
            cases h
    · intro s m r t h hc
      simp only [parseMember] at h ⊢
      cases hw : skipWs s with
      | nil => simp [hw] at h
      | cons c r0 =>
        simp only [skipWs_append_cons t hw]
        simp only [hw] at h
        by_cases hq : c = '"'
        · rw [if_pos hq] at h ⊢
          cases hp : parseStrBody r0 with
          | none => simp [hp] at h
          | some p =>
            obtain ⟨cs, r1⟩ := p
            simp only [hp] at h
            simp only [parseStrBody_append r0 cs r1 t hp]
            cases hw2 : skipWs r1 with
            | nil => simp [hw2] at h
            | cons d r2 =>
              simp only [skipWs_append_cons t hw2]
              simp only [hw2] at h
              by_cases hdc : d = ':'
              · rw [if_pos hdc] at h ⊢
                cases hv1 : parseVal fuel r2 with
                | none => simp [hv1] at h
                | some p1 =>
                  obtain ⟨v1, r3⟩ := p1
                  simp only [hv1] at h
                  simp at h
                  obtain ⟨rfl, rfl⟩ := h
                  have hc1 : v1.isNum = false ∨ r3 ≠ [] := hc
                  simp [ihv r2 v1 r3 t hv1 hc1]
              · rw [if_neg hdc] at h
                cases h
        · rw [if_neg hq] at h
          cases h

/-- More fuel never changes a successful parse. -/
theorem parse_mono (f : Nat) :
    (∀ g s x, f ≤ g → parseVal f s = some x → parseVal g s = some x) ∧
    (∀ g s x, f ≤ g → parseArrRest f s = some x → parseArrRest g s = some x) ∧
    (∀ g s x, f ≤ g → parseObjRest f s = some x → parseObjRest g s = some x) ∧
    (∀ g s x, f ≤ g → parseMember f s = some x → parseMember g s = some x) := by
  induction f with
  | zero =>
    refine ⟨?_, ?_, ?_, ?_⟩ <;> intro g s x hfg h
    · simp [parseVal] at h
    · simp [parseArrRest] at h
    · simp [parseObjRest] at h
    · simp [parseMember] at h
  | succ f ih =>
    obtain ⟨ihv, iha, iho, ihm⟩ := ih
    refine ⟨?_, ?_, ?_, ?_⟩ <;> intro g s x hfg h <;>
      (cases g with
       | zero => exact absurd hfg (by omega)
       | succ g => ?_) <;>
      have hfg1 : f ≤ g := by omega
    · simp only [parseVal] at h ⊢
      cases hw : skipWs s with
      | nil => simp [hw] at h
      | cons c r0 =>
        simp only [hw] at h ⊢
        by_cases hn : c = 'n'
        · rw [if_pos hn] at h ⊢
          exact h
        · rw [if_neg hn] at h ⊢
          by_cases htr : c = 't'
          · rw [if_pos htr] at h ⊢
            exact h
          · rw [if_neg htr] at h ⊢
            by_cases hf : c = 'f'
            · rw [if_pos hf] at h ⊢
              exact h
            · rw [if_neg hf] at h ⊢
              by_cases hq : c = '"'
              · rw [if_pos hq] at h ⊢
                exact h
              · rw [if_neg hq] at h ⊢
                by_cases hbk : c = '['
                · rw [if_pos hbk] at h ⊢
                  cases hw2 : skipWs r0 with
                  | nil => simp [hw2] at h
                  | cons d r1 =>
                    simp only [hw2] at h ⊢
                    by_cases hd : d = ']'
                    · rw [if_pos hd] at h ⊢
                      exact h
                    · rw [if_neg hd] at h ⊢
                      cases hv1 : parseVal f r0 with
                      | none => simp [hv1] at h
                      | some p =>
                        simp only [hv1] at h
                        cases ha1 : parseArrRest f p.2 with
                        | none => simp [ha1] at h
                        | some q =>
                          simp only [ha1] at h
                          have hv2 := ihv g r0 p hfg1 (by rw [hv1])
                          have ha2 := iha g p.2 q hfg1 (by rw [ha1])
                          simp only [hv2, ha2]
                          exact h
                · rw [if_neg hbk] at h ⊢
                  by_cases hbr : c = '{'
                  · rw [if_pos hbr] at h ⊢
                    cases hw2 : skipWs r0 with
                    | nil => simp [hw2] at h
                    | cons d r1 =>
                      simp only [hw2] at h ⊢
                      by_cases hd : d = '}'
                      · rw [if_pos hd] at h ⊢
                        exact h
                      · rw [if_neg hd] at h ⊢
                        cases hm1 : parseMember f r0 with
                        | none => simp [hm1] at h
                        | some p =>
                          simp only [hm1] at h
                          cases ho1 : parseObjRest f p.2 with
                          | none => simp [ho1] at h
                          | some q =>
                            simp only [ho1] at h
                            have hm2 := ihm g r0 p hfg1 (by rw [hm1])
                            have ho2 := iho g p.2 q hfg1 (by rw [ho1])
                            simp only [hm2, ho2]
                            exact h
                  · rw [if_neg hbr] at h ⊢
                    by_cases hmn : c = '-'
                    · rw [if_pos hmn] at h ⊢
                      exact h
                    · rw [if_neg hmn] at h ⊢
                      by_cases hdg : c.isDigit = true
                      · rw [if_pos hdg] at h ⊢
                        exact h
                      · rw [if_neg hdg] at h
                        cases h
    · simp only [parseArrRest] at h ⊢
      cases hw : skipWs s with
      | nil => simp [hw] at h
      | cons c r0 =>
        simp only [hw] at h ⊢
        by_cases hb : c = ']'
        · rw [if_pos hb] at h ⊢
          exact h
        · rw [if_neg hb] at h ⊢
          by_cases hcm : c = ','
          · rw [if_pos hcm] at h ⊢
            cases hv1 : parseVal f r0 with
            | none => simp [hv1] at h
            | some p =>
              simp only [hv1] at h
              cases ha1 : parseArrRest f p.2 with
              | none => simp [ha1] at h
              | some q =>
                simp only [ha1] at h
                have hv2 := ihv g r0 p hfg1 (by rw [hv1])
                have ha2 := iha g p.2 q hfg1 (by rw [ha1])
                simp only [hv2, ha2]
                exact h
          · rw [if_neg hcm] at h
            cases h
    · simp only [parseObjRest] at h ⊢
      cases hw : skipWs s with
      | nil => simp [hw] at h
      | cons c r0 =>
        simp only [hw] at h ⊢
        by_cases hb : c = '}'
        · rw [if_pos hb] at h ⊢
          exact h
        · rw [if_neg hb] at h ⊢
          by_cases hcm : c = ','
          · rw [if_pos hcm] at h ⊢
            cases hm1 : parseMember f r0 with
            | none => simp [hm1] at h
            | some p =>
              simp only [hm1] at h
              cases ho1 : parseObjRest f p.2 with
              | none => simp [ho1] at h
              | some q =>
                simp only [ho1] at h
                have hm2 := ihm g r0 p hfg1 (by rw [hm1])
                have ho2 := iho g p.2 q hfg1 (by rw [ho1])
                simp only [hm2, ho2]
                exact h
          · rw [if_neg hcm] at h
            cases h
    · simp only [parseMember] at h ⊢
      cases hw : skipWs s with
      | nil => simp [hw] at h
      | cons c r0 =>
        simp only [hw] at h ⊢
        by_cases hq : c = '"'
        · rw [if_pos hq] at h ⊢
          cases hp : parseStrBody r0 with
          | none => simp [hp] at h
          | some p =>
            simp only [hp] at h ⊢
            cases hw2 : skipWs p.2 with
            | nil => simp [hw2] at h
            | cons d r2 =>
              simp only [hw2] at h ⊢
              by_cases hdc : d = ':'
              · rw [if_pos hdc] at h ⊢
                cases hv1 : parseVal f r2 with
                | none => simp [hv1] at h
                | some p1 =>
                  simp only [hv1] at h
                  have hv2 := ihv g r2 p1 hfg1 (by rw [hv1])
                  simp only [hv2]
                  exact h
              · rw [if_neg hdc] at h
                cases h
        · rw [if_neg hq] at h
          cases h

/-- Fuel monotonicity, specialised to the value parser. -/
theorem parseVal_mono {f g : Nat} {s : List Char} {x : Json × List Char}
    (hfg : f ≤ g) (h : parseVal f s = some x) : parseVal g s = some x :=
  (parse_mono f).1 g s x hfg h


/-! ### Validator lemmas -/

theorem validateEvent_none_iff (e : Event) :
    validateEvent e = none ↔
      e.url ≠ "" ∧ e.type ≠ "" ∧ e.type ∈ validEventTypes ∧ 0 < e.tsUtc := by
  unfold validateEvent
  split_ifs with h1 h2 h3 <;> simp_all

theorem validateEvent_none_type {e : Event} (h : validateEvent e = none) :
    e.type ∈ validEventTypes :=
  ((validateEvent_none_iff e).mp h).2.2.1

/-! ### Insert-loop lemmas -/

theorem insertLoop_ok_spec (f : DbFaults) :
    ∀ (events : List Event) (txn : Store) (i : Nat) (txn1 : Store),
      insertLoop f txn i events = .ok txn1 →
      txn1.rows = txn.rows ++ rowsFor txn.nextId events ∧
      txn1.nextId = txn.nextId + events.length := by
  intro events
  induction events with
  | nil =>
    intro txn i txn1 h
    simp only [insertLoop, Except.ok.injEq] at h
    subst h
    simp [rowsFor]
  | cons e rest ih =>
    intro txn i txn1 h
    simp only [insertLoop] at h
    cases hv : validateEvent e with
    | some msg => simp [hv] at h
    | none =>
      simp only [hv] at h
      by_cases hc : (f.execFails i = true ∨ e.type ∉ validEventTypes)
      · simp [hc] at h
      · simp only [hc, if_false] at h
        obtain ⟨h1, h2⟩ := ih _ _ _ h
        refine ⟨?_, ?_⟩
        · rw [h1]
          simp [execInsert, rowsFor]
        · rw [h2]
          simp only [execInsert, List.length_cons]
          omega

theorem insertLoop_all_valid_error (f : DbFaults) :
    ∀ (pre : List Event) (suf : List Event) (e : Event) (msg : String)
      (txn : Store) (i : Nat),
      (∀ x ∈ pre, validateEvent x = none) →
      (∀ j, f.execFails j = false) →
      validateEvent e = some msg →
      insertLoop f txn i (pre ++ e :: suf) =
        .error ("invalid event: " ++ msg) := by
  intro pre
  induction pre with
  | nil =>
    intro suf e msg txn i _ _ hv
    simp [insertLoop, hv]
  | cons p rest ih =>
    intro suf e msg txn i hall hexec hv
    have hp : validateEvent p = none := hall p (by simp)
    simp only [List.cons_append, insertLoop, hp]
    have ht : p.type ∈ validEventTypes := validateEvent_none_type hp
    simp only [hexec i, ht, not_true_eq_false, or_self, Bool.false_eq_true,
      if_false]
    exact ih suf e msg _ _ (fun x hx => hall x (by simp [hx])) hexec hv

theorem rowsFor_map_id :
    ∀ (events : List Event) (base : Nat),
      (rowsFor base events).map Row.id = List.range' base events.length := by
  intro events
  induction events with
  | nil => intro base; simp [rowsFor]
  | cons e rest ih =>
    intro base
    simp [rowsFor, List.range'_succ, rowOfEvent, ih]

/-- C2: `ValidateEvent` fails exactly when the URL is empty, the type is
empty, the type is outside the six-member allowed set, or the timestamp is
not strictly positive; the checks run in order and the first failing check
determines the reported error, so a fully constrained event validates. -/
theorem claim2_validateEvent_spec (e : Event) :
    (validateEvent e = none ↔
      e.url ≠ "" ∧ e.type ≠ "" ∧ e.type ∈ validEventTypes ∧ 0 < e.tsUtc) ∧
    (e.url = "" → validateEvent e = some "URL cannot be empty") ∧
    (e.url ≠ "" → e.type = "" → validateEvent e = some "Type cannot be empty") ∧
    (e.url ≠ "" → e.type ≠ "" → e.type ∉ validEventTypes →
      validateEvent e = some ("invalid event type: " ++ e.type)) ∧
    (e.url ≠ "" → e.type ≠ "" → e.type ∈ validEventTypes → e.tsUtc ≤ 0 →
      validateEvent e = some "timestamp must be positive") := by
  refine ⟨validateEvent_none_iff e, ?_, ?_, ?_, ?_⟩ <;>
    (intros; unfold validateEvent; split_ifs <;> simp_all)

/-- Witness for C2 at concrete events: the all-constraints event validates,
and an event failing only the timestamp check reports the timestamp error. -/
theorem claim2_validateEvent_spec_witness :
    validateEvent
      { tsUtc := 0, tsIso := "", url := "https://example.com", title := none,
        type := "navigate", data := none } =
      some "timestamp must be positive" :=
  (claim2_validateEvent_spec _).2.2.2.2 (by decide) (by decide) (by decide)
    (by decide)

/-- C9: the validator reads only the URL, type and integer timestamp: any
event with non-empty URL, allowed type and positive timestamp validates no
matter what `ts_iso` (even empty), `title` and `data` hold, and events
agreeing on those three fields validate identically. -/
theorem claim9_validateEvent_ignores_rest :
    (∀ e : Event, e.url ≠ "" → e.type ∈ validEventTypes → 0 < e.tsUtc →
      validateEvent e = none) ∧
    (∀ e1 e2 : Event, e1.url = e2.url → e1.type = e2.type →
      e1.tsUtc = e2.tsUtc → validateEvent e1 = validateEvent e2) := by
  constructor
  · intro e hu ht hts
    have hne : e.type ≠ "" := by
      intro h
      rw [h] at ht
      exact absurd ht (by decide)
    exact (validateEvent_none_iff e).mpr ⟨hu, hne, ht, hts⟩
  · intro e1 e2 h1 h2 h3
    unfold validateEvent
    rw [h1, h2, h3]

/-- Witness for C9: an event with empty `ts_iso`, no title and nil data but
valid URL, type and timestamp passes validation. -/
theorem claim9_validateEvent_ignores_rest_witness :
    validateEvent
      { tsUtc := 1, tsIso := "", url := "https://example.com", title := none,
        type := "click", data := none } = none :=
  claim9_validateEvent_ignores_rest.1 _ (by decide) (by decide) (by decide)

/-- C1: batch insertion is atomic.  Whenever `InsertEvents` returns an
error — under any injected engine faults, and in particular when exactly one
event at any position fails validation — the committed store is returned
unchanged: the batch leaves zero new rows. -/
theorem claim1_insertEvents_atomic :
    (∀ (f : DbFaults) (st : Store) (events : List Event) (msg : String),
      (insertEvents f st events).1 = .error msg →
      (insertEvents f st events).2 = st) ∧
    (∀ (st : Store) (pre suf : List Event) (e : Event) (msg : String),
      (∀ x ∈ pre, validateEvent x = none) →
      validateEvent e = some msg →
      insertEvents noFaults st (pre ++ e :: suf) =
        (.error ("invalid event: " ++ msg), st)) := by
  constructor
  · intro f st events msg h
    unfold insertEvents at h ⊢
    by_cases h1 : f.beginFails = true
    · simp [h1]
    · by_cases h2 : f.prepareFails = true
      · simp [h1, h2]
      · simp only [h1, h2, if_false, Bool.false_eq_true] at h ⊢
        cases hl : insertLoop f st 0 events with
        | error m => simp [hl]
        | ok txn =>
          simp only [hl] at h ⊢
          by_cases h3 : f.commitFails = true
          · simp [h3]
          · simp [h3] at h
  · intro st pre suf e msg hall hv
    have hl := insertLoop_all_valid_error noFaults pre suf e msg st 0 hall
      (fun _ => rfl) hv
    unfold insertEvents
    simp only [noFaults] at hl ⊢
    simp [hl]

/-- Witness for C1: a two-event batch whose second event has an empty URL is
rejected whole, leaving a concrete store unchanged. -/
theorem claim1_insertEvents_atomic_witness :
    insertEvents noFaults { nextId := 1, rows := [] }
      [{ tsUtc := 1, tsIso := "t", url := "https://a", title := none,
         type := "navigate", data := none },
       { tsUtc := 2, tsIso := "t", url := "", title := none,
         type := "click", data := none }] =
      (.error ("invalid event: " ++ "URL cannot be empty"),
        { nextId := 1, rows := [] }) :=
  claim1_insertEvents_atomic.2 _
    [{ tsUtc := 1, tsIso := "t", url := "https://a", title := none,
       type := "navigate", data := none }] [] _ _ (by decide) (by decide)

/-- C3: a successful `InsertEvents` appends exactly one row per event, in
batch order, with identifiers assigned consecutively from the engine's next
identifier — strictly increasing and, the table being append-only, never
reused (well-formedness is preserved and every new identifier exceeds every
pre-existing one). -/
theorem claim3_insertEvents_success :
    ∀ (f : DbFaults) (st : Store) (events : List Event) (st1 : Store),
      insertEvents f st events = (.ok (), st1) →
      st1.rows = st.rows ++ rowsFor st.nextId events ∧
      (rowsFor st.nextId events).length = events.length ∧
      (rowsFor st.nextId events).map Row.id =
        List.range' st.nextId events.length ∧
      st1.nextId = st.nextId + events.length ∧
      (StoreWF st → StoreWF st1) := by
  intro f st events st1 h
  unfold insertEvents at h
  by_cases h1 : f.beginFails = true
  · simp [h1] at h
  · by_cases h2 : f.prepareFails = true
    · simp [h1, h2] at h
    · simp only [h1, h2, if_false, Bool.false_eq_true] at h
      cases hl : insertLoop f st 0 events with
      | error m => simp [hl] at h
      | ok txn =>
        simp only [hl] at h
        by_cases h3 : f.commitFails = true
        · simp [h3] at h
        · simp only [h3, if_false, Bool.false_eq_true] at h
          obtain ⟨hrows, hnext⟩ := insertLoop_ok_spec f events st 0 txn hl
          have hst1 : st1 = txn := by
            cases h
            rfl
          subst hst1
          have hmap := rowsFor_map_id events st.nextId
          have hlen : (rowsFor st.nextId events).length = events.length := by
            have := congrArg List.length hmap
            simpa using this
          refine ⟨hrows, hlen, hmap, hnext, ?_⟩
          rintro ⟨hpw, hlt⟩
          constructor
          · rw [hrows]
            rw [List.map_append, List.pairwise_append]
            refine ⟨hpw, ?_, ?_⟩
            · rw [hmap]
              exact List.pairwise_lt_range' st.nextId events.length
            · intro a ha b hb
              rw [hmap] at hb
              have hb1 := (List.mem_range'_1).mp hb
              obtain ⟨r, hr, rfl⟩ := List.mem_map.mp ha
              exact lt_of_lt_of_le (hlt r hr) hb1.1
          · intro r hr
            rw [hrows] at hr
            rw [hnext]
            rcases List.mem_append.mp hr with hin | hin
            · exact lt_of_lt_of_le (hlt r hin) (Nat.le_add_right _ _)
            · have : r.id ∈ (rowsFor st.nextId events).map Row.id :=
                List.mem_map.mpr ⟨r, hin, rfl⟩
              rw [hmap] at this
              exact ((List.mem_range'_1).mp this).2

/-- Witness for C3: inserting a concrete two-event batch into a store with
next identifier 5 appends rows 5 and 6 in order. -/
theorem claim3_insertEvents_success_witness :
    ({ nextId := 7,
       rows := [rowOfEvent 5
         { tsUtc := 1, tsIso := "t", url := "https://a", title := none,
           type := "navigate", data := none },
        rowOfEvent 6
         { tsUtc := 2, tsIso := "u", url := "https://b", title := some "B",
           type := "click", data := none }] } : Store).rows =
      ([] : List Row) ++ rowsFor 5
        [{ tsUtc := 1, tsIso := "t", url := "https://a", title := none,
           type := "navigate", data := none },
         { tsUtc := 2, tsIso := "u", url := "https://b", title := some "B",
           type := "click", data := none }] :=
  (claim3_insertEvents_success noFaults { nextId := 5, rows := [] } _ _
    (by rfl)).1

/-- C4: the events handler's request-to-response mapping.  A non-POST method
is answered 405 without store access; an undecodable body 400 without store
access; an empty decoded batch 204 without store access; a non-empty batch
is forwarded to the insert path, answered 204 on success and 500 on
failure, with the store left as the insert path left it. -/
theorem claim4_handleEvents_mapping
    (f : DbFaults) (method : String) (body : List Char) (st : Store) :
    (method ≠ "POST" →
      handleEvents f method body st =
        ({ status := 405, body := "POST only\n" }, st, false)) ∧
    (method = "POST" → decodeBatch body = none →
      handleEvents f method body st =
        ({ status := 400, body := "Invalid JSON format\n" }, st, false)) ∧
    (∀ b, method = "POST" → decodeBatch body = some b → b.events = [] →
      handleEvents f method body st =
        ({ status := 204, body := "" }, st, false)) ∧
    (∀ b, method = "POST" → decodeBatch body = some b → b.events ≠ [] →
      (∀ st1, insertEvents f st b.events = (.ok (), st1) →
        handleEvents f method body st =
          ({ status := 204, body := "" }, st1, true)) ∧
      (∀ msg st1, insertEvents f st b.events = (.error msg, st1) →
        handleEvents f method body st =
          ({ status := 500, body := "Failed to store events\n" }, st1, true))) := by
  refine ⟨?_, ?_, ?_, ?_⟩
  · intro h
    simp [handleEvents, h]
  · intro h hd
    simp [handleEvents, h, hd]
  · intro b h hd he
    simp [handleEvents, h, hd, he]
  · intro b h hd he
    constructor
    · intro st1 hi
      simp [handleEvents, h, hd, he, hi]
    · intro msg st1 hi
      simp [handleEvents, h, hd, he, hi]

/-- Witness for C4 at a concrete request: a GET is answered 405 and the
store is untouched. -/
theorem claim4_handleEvents_mapping_witness :
    handleEvents noFaults "GET" [] { nextId := 1, rows := [] } =
      ({ status := 405, body := "POST only\n" }, { nextId := 1, rows := [] },
        false) :=
  (claim4_handleEvents_mapping noFaults "GET" [] { nextId := 1, rows := [] }).1
    (by decide)

/-- C5: failing inserts are indistinguishable to the caller.  Every 500
response carries the one fixed generic body, so two failing runs — whatever
the inputs, the injected engine fault or the invalid event — produce
identical client-visible responses, and no storage error text reaches the
caller. -/
theorem claim5_failure_response_uniform :
    (∀ (f : DbFaults) (method : String) (body : List Char) (st : Store),
      (handleEvents f method body st).1.status = 500 →
      (handleEvents f method body st).1.body = "Failed to store events\n") ∧
    (∀ (f1 : DbFaults) (m1 : String) (b1 : List Char) (s1 : Store)
       (f2 : DbFaults) (m2 : String) (b2 : List Char) (s2 : Store),
      (handleEvents f1 m1 b1 s1).1.status = 500 →
      (handleEvents f2 m2 b2 s2).1.status = 500 →
      (handleEvents f1 m1 b1 s1).1.body = (handleEvents f2 m2 b2 s2).1.body) := by
  have key : ∀ (f : DbFaults) (method : String) (body : List Char) (st : Store),
      (handleEvents f method body st).1.status = 500 →
      (handleEvents f method body st).1.body = "Failed to store events\n" := by
    intro f method body st h
    unfold handleEvents at h ⊢
    by_cases hm : method ≠ "POST"
    · simp [hm] at h
    · simp only [hm, if_false] at h ⊢
      cases hd : decodeBatch body with
      | none => simp [hd] at h
      | some b =>
        simp only [hd] at h ⊢
        by_cases he : b.events = []
        · simp [he] at h
        · simp only [he, if_false] at h ⊢
          cases hi : insertEvents f st b.events with
          | mk r st1 =>
            cases r with
            | error msg => simp [hi]
            | ok u => simp [hi] at h
  exact ⟨key, fun f1 m1 b1 s1 f2 m2 b2 s2 h1 h2 => by
    rw [key f1 m1 b1 s1 h1, key f2 m2 b2 s2 h2]⟩

/-- Witness for C5: a run failing on an invalid event and a run failing on
an injected begin-transaction fault (a locked database) return identical
bodies. -/
theorem claim5_failure_response_uniform_witness :
    (handleEvents noFaults "POST" ("\x7b\"events\":[\x7b\x7d]\x7d").data
      { nextId := 1, rows := [] }).1.body =
    (handleEvents
      { beginFails := true, prepareFails := false,
        execFails := fun _ => false, commitFails := false } "POST"
      ("\x7b\"events\":[\x7b\x7d]\x7d").data
      { nextId := 1, rows := [] }).1.body :=
  claim5_failure_response_uniform.2 _ _ _ _ _ _ _ _ (by decide) (by decide)

theorem mem_createIfNotExists_of_mem {x : String} {s : List String}
    (o : String) (h : x ∈ s) : x ∈ createIfNotExists o s := by
  unfold createIfNotExists
  split_ifs with h1
  · exact h
  · exact List.mem_append_left _ h

theorem self_mem_createIfNotExists (o : String) (s : List String) :
    o ∈ createIfNotExists o s := by
  unfold createIfNotExists
  split_ifs with h1
  · exact h1
  · simp

theorem createIfNotExists_of_mem {o : String} {s : List String} (h : o ∈ s) :
    createIfNotExists o s = s := if_pos h

theorem foldl_create_preserve :
    ∀ (objs : List String) (s : List String) (x : String), x ∈ s →
      x ∈ objs.foldl (fun t o => createIfNotExists o t) s := by
  intro objs
  induction objs with
  | nil => intro s x h; exact h
  | cons o rest ih =>
    intro s x h
    exact ih _ _ (mem_createIfNotExists_of_mem o h)

theorem foldl_create_adds :
    ∀ (objs : List String) (s : List String) (o : String), o ∈ objs →
      o ∈ objs.foldl (fun t u => createIfNotExists u t) s := by
  intro objs
  induction objs with
  | nil => intro s o h; cases h
  | cons u rest ih =>
    intro s o h
    rcases List.mem_cons.mp h with rfl | h1
    · exact foldl_create_preserve rest _ _ (self_mem_createIfNotExists o s)
    · exact ih _ _ h1

theorem foldl_create_noop :
    ∀ (objs : List String) (s : List String), (∀ o ∈ objs, o ∈ s) →
      objs.foldl (fun t u => createIfNotExists u t) s = s := by
  intro objs
  induction objs with
  | nil => intro s _; rfl
  | cons u rest ih =>
    intro s h
    have hu : u ∈ s := h u (by simp)
    simp only [List.foldl_cons, createIfNotExists_of_mem hu]
    exact ih _ (fun o ho => h o (by simp [ho]))

theorem createTables_idem (s : List String) :
    createTables (createTables s) = createTables s :=
  foldl_create_noop _ _ (fun _ ho => foldl_create_adds _ _ _ ho)

/-- C7: schema opening is idempotent.  A successful open can be repeated
against the same path: the reopen succeeds and changes nothing, the DDL is
a no-op on an existing schema, and a fresh open creates each schema object
exactly once. -/
theorem claim7_open_idempotent :
    ∀ (fs : Fs) (dir file : String) (fs1 : Fs),
      newDatabase fs dir file = .ok fs1 →
      newDatabase fs1 dir file = .ok fs1 ∧
      (∀ s, createTables (createTables s) = createTables s) ∧
      (getSchema fs dir file = none →
        getSchema fs1 dir file = some schemaObjects ∧ schemaObjects.Nodup) := by
  intro fs dir file fs1 h
  have hct := createTables_idem
  unfold newDatabase sqliteConnect at h
  by_cases hdir : dir ∈ fs.dirs
  · simp only [hdir, if_true] at h
    cases hg : getSchema fs dir file with
    | some schema =>
      simp only [hg] at h
      cases h
      refine ⟨?_, hct, ?_⟩
      · unfold newDatabase sqliteConnect
        have hd1 : dir ∈ (putSchema fs dir file (createTables schema)).dirs := by
          simpa [putSchema] using hdir
        have hg1 : getSchema (putSchema fs dir file (createTables schema)) dir
            file = some (createTables schema) := by
          simp [getSchema, putSchema]
        simp only [hd1, if_true, hg1, hct]
        unfold putSchema
        simp [getSchema, putSchema, List.filter_filter]
      · intro hnone
        simp at hnone
    | none =>
      simp only [hg] at h
      cases h
      refine ⟨?_, hct, ?_⟩
      · unfold newDatabase sqliteConnect
        have hd1 : dir ∈ (putSchema (putSchema fs dir file []) dir file
            (createTables [])).dirs := by
          simpa [putSchema] using hdir
        have hg1 : getSchema (putSchema (putSchema fs dir file []) dir file
            (createTables [])) dir file = some (createTables []) := by
          simp [getSchema, putSchema]
        simp only [hd1, if_true, hg1, hct]
        unfold putSchema
        simp [getSchema, putSchema, List.filter_filter]
      · intro _
        refine ⟨?_, by decide⟩
        have : createTables [] = schemaObjects := by decide
        simp [getSchema, putSchema, this]
  · simp [hdir] at h

/-- Witness for C7: opening a fresh store in an existing directory and
reopening it is error-free and leaves the state unchanged. -/
theorem claim7_open_idempotent_witness :
    newDatabase
      { dirs := ["app"],
        files := [(("app", "events.db"), schemaObjects)] } "app" "events.db" =
      .ok { dirs := ["app"],
            files := [(("app", "events.db"), schemaObjects)] } :=
  (claim7_open_idempotent { dirs := ["app"], files := [] } "app" "events.db"
    { dirs := ["app"], files := [(("app", "events.db"), schemaObjects)] }
    (by rfl)).1

/-- C8 counterexample: `NewDatabase` does not create the parent directory —
on a filesystem without it, the open fails (the lazy connection surfaces
SQLite's "unable to open database file" out of `createTables`), contradicting
the claim that open succeeds when the parent directory is absent. -/
theorem claim8_counterexample :
    newDatabase { dirs := [], files := [] } "appdir" "events.db" =
      .error "failed to create database tables: unable to open database file" := by
  rfl

/-- C8 amended: `NewDatabase` creates the storage file and the table and
indexes when absent, but only below an existing parent directory; with the
parent missing it fails, and it is the entry point that creates the
directory structure (`os.MkdirAll`) before opening, so the start-up
sequence as a whole always opens successfully. -/
theorem claim8_amended :
    (∀ (fs : Fs) (dir file : String), dir ∈ fs.dirs →
      getSchema fs dir file = none →
      ∃ fs1, newDatabase fs dir file = .ok fs1 ∧
        getSchema fs1 dir file = some schemaObjects) ∧
    (∀ (fs : Fs) (dir file : String), dir ∉ fs.dirs →
      newDatabase fs dir file =
        .error "failed to create database tables: unable to open database file") ∧
    (∀ (fs : Fs) (dir file : String), ∃ fs1,
      mainOpenStore fs dir file = .ok fs1) := by
  refine ⟨?_, ?_, ?_⟩
  · intro fs dir file hdir hg
    unfold newDatabase sqliteConnect
    simp only [hdir, if_true, hg]
    refine ⟨_, rfl, ?_⟩
    have : createTables [] = schemaObjects := by decide
    simp [getSchema, putSchema, this]
  · intro fs dir file hdir
    unfold newDatabase sqliteConnect
    simp [hdir]
  · intro fs dir file
    unfold mainOpenStore newDatabase sqliteConnect
    have hdir : dir ∈ (mkdirAll fs dir).dirs := by
      unfold mkdirAll
      split_ifs with h
      · exact h
      · simp
    simp only [hdir, if_true]
    cases hg : getSchema (mkdirAll fs dir) dir file <;> simp [hg]

/-- Witness for C8's amended statement: a fresh open below an existing
directory succeeds and installs the full schema. -/
theorem claim8_amended_witness :
    ∃ fs1, newDatabase { dirs := ["app"], files := [] } "app" "events.db" =
      .ok fs1 ∧ getSchema fs1 "app" "events.db" = some schemaObjects :=
  claim8_amended.1 { dirs := ["app"], files := [] } "app" "events.db"
    (by decide) (by decide)

theorem batchOfJson_isNum_false {v : Json} {b : Batch}
    (h : batchOfJson v = some b) : v.isNum = false := by
  cases v <;> first | rfl | simp [batchOfJson] at h

/-- C10: body decoding stops after the first complete JSON value.  For any
body that parses exactly as one batch document, appending arbitrary
trailing bytes leaves the handler's behaviour identical — in particular it
is never a bad-request outcome. -/
theorem claim10_trailing_bytes_ignored :
    ∀ (f : DbFaults) (st : Store) (body extra : List Char) (v : Json)
      (b : Batch),
      decodeOne body = some (v, []) →
      batchOfJson v = some b →
      handleEvents f "POST" (body ++ extra) st =
        handleEvents f "POST" body st ∧
      (handleEvents f "POST" (body ++ extra) st).1.status ≠ 400 := by
  intro f st body extra v b h hb
  have hnum : v.isNum = false := batchOfJson_isNum_false hb
  have h0 : parseVal (body.length + 1) body = some (v, []) := h
  have hext : parseVal (body.length + 1) (body ++ extra) = some (v, extra) := by
    have := (parse_append (body.length + 1)).1 body v [] extra h0
      (Or.inl hnum)
    simpa using this
  have hmono : parseVal ((body ++ extra).length + 1) (body ++ extra) =
      some (v, extra) :=
    parseVal_mono (by simp only [List.length_append]; omega) hext
  have hone : decodeOne (body ++ extra) = some (v, extra) := hmono
  have hd2 : decodeBatch (body ++ extra) = some b := by
    simp [decodeBatch, hone, hb]
  have hd1 : decodeBatch body = some b := by
    simp [decodeBatch, h, hb]
  refine ⟨?_, ?_⟩
  · simp [handleEvents, hd1, hd2]
  · by_cases he : b.events = []
    · simp [handleEvents, hd2, he]
    · cases hi : insertEvents f st b.events with
      | mk r st1 =>
        cases r with
        | error msg => simp [handleEvents, hd2, he, hi]
        | ok u => simp [handleEvents, hd2, he, hi]

/-- Witness for C10: a concrete empty-batch document followed by trailing
junk is processed exactly like the document alone. -/
theorem claim10_trailing_bytes_ignored_witness :
    handleEvents noFaults "POST"
      (("\x7b\"events\":[]\x7d").data ++ ("junk").data)
      { nextId := 1, rows := [] } =
    handleEvents noFaults "POST" ("\x7b\"events\":[]\x7d").data
      { nextId := 1, rows := [] } :=
  (claim10_trailing_bytes_ignored noFaults { nextId := 1, rows := [] }
    ("\x7b\"events\":[]\x7d").data ("junk").data
    (.obj [("events", .arr [])]) (Batch.mk []) (by decide) (by decide)).1

/-! ### Canonical-map lemmas (the Go map image of decoded objects) -/

theorem mem_insertByKey :
    ∀ {k : String} {v : Json} {l : List (String × Json)} (p : String × Json),
      p ∈ insertByKey k v l → p = (k, v) ∨ p ∈ l := by
  intro k v l
  induction l with
  | nil =>
    intro p hp
    simp [insertByKey] at hp
    exact Or.inl hp
  | cons q rest ih =>
    intro p hp
    obtain ⟨k1, v1⟩ := q
    simp only [insertByKey] at hp
    split_ifs at hp with h1 h2
    · rcases List.mem_cons.mp hp with rfl | hin
      · exact Or.inl rfl
      · exact Or.inr (by simp [hin])
    · rcases List.mem_cons.mp hp with rfl | hin
      · exact Or.inl rfl
      · exact Or.inr hin
    · rcases List.mem_cons.mp hp with rfl | hin
      · exact Or.inr (by simp)
      · rcases ih p hin with h | h
        · exact Or.inl h
        · exact Or.inr (by simp [h])

theorem insertByKey_sorted :
    ∀ {l : List (String × Json)} (k : String) (v : Json),
      SortedObj l → SortedObj (insertByKey k v l) := by
  intro l
  induction l with
  | nil =>
    intro k v _
    simp [insertByKey]
  | cons q rest ih =>
    intro k v hs
    obtain ⟨k1, v1⟩ := q
    obtain ⟨hhead, htail⟩ := List.pairwise_cons.mp hs
    simp only [insertByKey]
    split_ifs with h1 h2
    · subst h1
      exact List.pairwise_cons.mpr ⟨hhead, htail⟩
    · refine List.pairwise_cons.mpr ⟨?_, List.pairwise_cons.mpr ⟨hhead, htail⟩⟩
      intro q hq
      rcases List.mem_cons.mp hq with rfl | hin
      · exact h2
      · exact lt_trans h2 (hhead q hin)
    · have hk1 : k1 < k :=
        lt_of_le_of_ne (not_lt.mp h2) (fun he => h1 he.symm)
      refine List.pairwise_cons.mpr ⟨?_, ih k v htail⟩
      intro q hq
      rcases mem_insertByKey q hq with rfl | hin
      · exact hk1
      · exact hhead q hin

theorem insertByKey_at_end :
    ∀ {l : List (String × Json)} (k : String) (v : Json),
      (∀ p ∈ l, p.1 < k) → insertByKey k v l = l ++ [(k, v)] := by
  intro l
  induction l with
  | nil =>
    intro k v _
    rfl
  | cons q rest ih =>
    intro k v hlt
    obtain ⟨k1, v1⟩ := q
    have hk1 : k1 < k := hlt (k1, v1) (by simp)
    simp only [insertByKey]
    rw [if_neg (by intro he; subst he; exact lt_irrefl k hk1),
      if_neg (not_lt.mpr (le_of_lt hk1)),
      ih k v (fun p hp => hlt p (by simp [hp]))]
    simp

theorem canonObj_of_canonical :
    ∀ (m acc : List (String × Json)), SortedObj m → CanonVals m →
      (∀ p ∈ acc, ∀ q ∈ m, p.1 < q.1) →
      canonObj m acc = acc ++ m := by
  intro m
  induction m with
  | nil =>
    intro acc _ _ _
    simp [canonObj]
  | cons q rest ih =>
    intro acc hs hc hcross
    obtain ⟨k, v⟩ := q
    have hhead := (List.pairwise_cons.mp hs).1
    have htail := (List.pairwise_cons.mp hs).2
    simp only [canonObj]
    rw [hc (k, v) (by simp)]
    rw [insertByKey_at_end k v (fun p hp => hcross p hp (k, v) (by simp))]
    rw [ih (acc ++ [(k, v)]) htail
      (fun p hp => hc p (by simp [hp]))
      (by
        intro p hp q hq
        rcases List.mem_append.mp hp with hin | hin
        · exact hcross p hin q (by simp [hq])
        · have hp2 : p = (k, v) := by simpa using hin
          subst hp2
          exact hhead q hq)]
    simp

mutual

theorem canonVal_idem : ∀ j : Json, canonVal (canonVal j) = canonVal j
  | .null => rfl
  | .num k => rfl
  | .bool c => rfl
  | .str w => rfl
  | .arr l => by
    simp only [canonVal]
    rw [canonArr_idem l]
  | .obj l => by
    simp only [canonVal]
    have h := canonObjGood l [] List.Pairwise.nil (by intro p hp; cases hp)
    rw [canonObj_of_canonical (canonObj l []) [] h.1 h.2
      (by intro p hp; cases hp)]
    simp

theorem canonArr_idem : ∀ l : List Json, canonArr (canonArr l) = canonArr l
  | [] => rfl
  | v :: r => by
    simp only [canonArr]
    rw [canonVal_idem v, canonArr_idem r]

theorem canonObjGood :
    ∀ (l acc : List (String × Json)), SortedObj acc → CanonVals acc →
      SortedObj (canonObj l acc) ∧ CanonVals (canonObj l acc)
  | [], acc => fun hs hc => ⟨hs, hc⟩
  | (k, v) :: r, acc => fun hs hc => by
    simp only [canonObj]
    refine canonObjGood r _ (insertByKey_sorted k (canonVal v) hs) ?_
    intro p hp
    rcases mem_insertByKey p hp with rfl | hin
    · exact canonVal_idem v
    · exact hc p hin

end

/-! ### Wire round trip (decode then encode) -/

theorem setField_ts_utc (ev : Event) (n : Int) :
    setField ev "ts_utc" (.num n) =
      if i64Min ≤ n ∧ n < i64Max then some { ev with tsUtc := n } else none :=
  rfl

theorem setField_ts_iso (ev : Event) (s : String) :
    setField ev "ts_iso" (.str s) = some { ev with tsIso := s } := rfl

theorem setField_url (ev : Event) (s : String) :
    setField ev "url" (.str s) = some { ev with url := s } := rfl

theorem setField_title_some (ev : Event) (t : String) :
    setField ev "title" (.str t) = some { ev with title := some t } := rfl

theorem setField_title_none (ev : Event) :
    setField ev "title" .null = some { ev with title := none } := rfl

theorem setField_type (ev : Event) (s : String) :
    setField ev "type" (.str s) = some { ev with type := s } := rfl

theorem setField_data_obj (ev : Event) (m : List (String × Json)) :
    setField ev "data" (.obj m) =
      some { ev with data := some (canonObj m []) } := rfl

theorem setField_data_null (ev : Event) :
    setField ev "data" .null = some { ev with data := none } := rfl

theorem eventOfJson_encodeEvent :
    ∀ (e : Event), EventWF e → eventOfJson (encodeEvent e) = some e := by
  intro e hwf
  obtain ⟨⟨hlo, hhi⟩, hdata⟩ := hwf
  obtain ⟨n, iso, u, ti, ty, da⟩ := e
  unfold encodeEvent eventOfJson
  simp only [List.foldlM_cons, List.foldlM_nil]
  rw [setField_ts_utc, if_pos ⟨hlo, hhi⟩]
  cases ti with
  | none =>
    cases da with
    | none =>
      simp [setField_ts_iso, setField_url, setField_title_none,
        setField_type, setField_data_null]
    | some mdat =>
      obtain ⟨hsort, hcanon⟩ := hdata mdat rfl
      have hm : canonObj mdat [] = mdat := by
        rw [canonObj_of_canonical mdat [] hsort hcanon
          (by intro p hp; cases hp)]
        simp
      simp [setField_ts_iso, setField_url, setField_title_none,
        setField_type, setField_data_obj, hm]
  | some t =>
    cases da with
    | none =>
      simp [setField_ts_iso, setField_url, setField_title_some,
        setField_type, setField_data_null]
    | some mdat =>
      obtain ⟨hsort, hcanon⟩ := hdata mdat rfl
      have hm : canonObj mdat [] = mdat := by
        rw [canonObj_of_canonical mdat [] hsort hcanon
          (by intro p hp; cases hp)]
        simp
      simp [setField_ts_iso, setField_url, setField_title_some,
        setField_type, setField_data_obj, hm]

theorem mapM_eventOfJson_encode :
    ∀ (evs : List Event), (∀ e ∈ evs, EventWF e) →
      (evs.map encodeEvent).mapM eventOfJson = some evs := by
  intro evs
  induction evs with
  | nil => intro _; rfl
  | cons e rest ih =>
    intro h
    simp only [List.map_cons, List.mapM_cons]
    rw [eventOfJson_encodeEvent e (h e (by simp))]
    rw [ih (fun x hx => h x (by simp [hx]))]
    rfl

theorem batchOfJson_encodeBatch :
    ∀ (b : Batch), (∀ e ∈ b.events, EventWF e) →
      batchOfJson (encodeBatch b) = some b := by
  intro b h
  obtain ⟨evs⟩ := b
  unfold encodeBatch batchOfJson
  simp only [List.foldlM_cons, List.foldlM_nil]
  rw [if_pos (show foldKey "events" = "events" from rfl)]
  simp only [eventsOfJson]
  rw [mapM_eventOfJson_encode evs (by simpa using h)]
  rfl

theorem setField_wf :
    ∀ {ev : Event} {k : String} {v : Json} {ev1 : Event}, EventWF ev →
      setField ev k v = some ev1 → EventWF ev1 := by
  intro ev k v ev1 hwf h
  unfold setField at h
  split at h
  · -- ts_utc
    split at h
    · split_ifs at h with hb
      cases h
      exact ⟨hb, hwf.2⟩
    · cases h
      exact hwf
    · cases h
  · -- ts_iso
    split at h
    · cases h
      exact ⟨hwf.1, hwf.2⟩
    · cases h
      exact hwf
    · cases h
  · -- url
    split at h
    · cases h
      exact ⟨hwf.1, hwf.2⟩
    · cases h
      exact hwf
    · cases h
  · -- title
    split at h
    · cases h
      exact ⟨hwf.1, hwf.2⟩
    · cases h
      exact ⟨hwf.1, hwf.2⟩
    · cases h
  · -- type
    split at h
    · cases h
      exact ⟨hwf.1, hwf.2⟩
    · cases h
      exact hwf
    · cases h
  · -- data
    split at h
    · cases h
      refine ⟨hwf.1, ?_⟩
      intro m hm
      cases hm
      exact canonObjGood _ [] List.Pairwise.nil (by intro p hp; cases hp)
    · cases h
      exact ⟨hwf.1, by intro m hm; cases hm⟩
    · cases h
  · -- unknown key
    cases h
    exact hwf

theorem defaultEvent_wf : EventWF defaultEvent := by
  refine ⟨⟨?_, ?_⟩, ?_⟩
  · norm_num [i64Min, defaultEvent]
  · norm_num [i64Max, defaultEvent]
  · intro m hm
    cases hm

theorem foldlM_setField_wf :
    ∀ (l : List (String × Json)) (acc e : Event), EventWF acc →
      l.foldlM (fun ev m => setField ev m.1 m.2) acc = some e →
      EventWF e := by
  intro l
  induction l with
  | nil =>
    intro acc e hacc h
    simp only [List.foldlM_nil] at h
    cases h
    exact hacc
  | cons p rest ih =>
    intro acc e hacc h
    simp only [List.foldlM_cons] at h
    cases hsf : setField acc p.1 p.2 with
    | none => simp [hsf] at h
    | some acc1 =>
      simp only [hsf] at h
      simp at h
      exact ih acc1 e (setField_wf hacc hsf) h

theorem eventOfJson_wf :
    ∀ {j : Json} {e : Event}, eventOfJson j = some e → EventWF e := by
  intro j e h
  cases j with
  | obj l => exact foldlM_setField_wf l defaultEvent e defaultEvent_wf h
  | null =>
    cases h
    exact defaultEvent_wf
  | bool b1 => simp [eventOfJson] at h
  | num n => simp [eventOfJson] at h
  | str s => simp [eventOfJson] at h
  | arr l => simp [eventOfJson] at h

theorem mapM_eventOfJson_wf :
    ∀ (l : List Json) (evs : List Event), l.mapM eventOfJson = some evs →
      ∀ e ∈ evs, EventWF e := by
  intro l
  induction l with
  | nil =>
    intro evs h
    simp only [List.mapM_nil] at h
    cases h
    intro e he
    cases he
  | cons a rest ih =>
    intro evs h
    simp only [List.mapM_cons] at h
    cases ha : eventOfJson a with
    | none => rw [ha] at h; simp at h
    | some e1 =>
      rw [ha] at h
      cases hr : rest.mapM eventOfJson with
      | none => rw [hr] at h; simp at h
      | some evs1 =>
        rw [hr] at h
        simp at h
        cases h
        intro e he
        rcases List.mem_cons.mp he with rfl | hin
        · exact eventOfJson_wf ha
        · exact ih evs1 hr e hin

theorem eventsOfJson_wf :
    ∀ {j : Json} {evs : List Event}, eventsOfJson j = some evs →
      ∀ e ∈ evs, EventWF e := by
  intro j evs h
  cases j with
  | arr l => exact mapM_eventOfJson_wf l evs h
  | null =>
    cases h
    intro e he
    cases he
  | bool b1 => simp [eventsOfJson] at h
  | num n => simp [eventsOfJson] at h
  | str s => simp [eventsOfJson] at h
  | obj l => simp [eventsOfJson] at h

theorem foldlM_events_wf :
    ∀ (l : List (String × Json)) (acc evs : List Event),
      (∀ e ∈ acc, EventWF e) →
      l.foldlM
        (fun a m =>
          if foldKey m.1 = "events" then eventsOfJson m.2 else some a)
        acc = some evs →
      ∀ e ∈ evs, EventWF e := by
  intro l
  induction l with
  | nil =>
    intro acc evs hacc h
    simp only [List.foldlM_nil] at h
    cases h
    exact hacc
  | cons p rest ih =>
    intro acc evs hacc h
    simp only [List.foldlM_cons] at h
    by_cases hk : foldKey p.1 = "events"
    · rw [if_pos hk] at h
      cases he : eventsOfJson p.2 with
      | none => simp [he] at h
      | some evs1 =>
        simp only [he] at h
        simp at h
        exact ih evs1 evs (eventsOfJson_wf he) h
    · rw [if_neg hk] at h
      simp at h
      exact ih acc evs hacc h

theorem batchOfJson_wf :
    ∀ {v : Json} {b : Batch}, batchOfJson v = some b →
      ∀ e ∈ b.events, EventWF e := by
  intro v b h
  cases v with
  | obj l =>
    unfold batchOfJson at h
    cases hf : l.foldlM
        (fun a m =>
          if foldKey m.1 = "events" then eventsOfJson m.2 else some a)
        ([] : List Event) with
    | none => simp [hf] at h
    | some evs =>
      simp only [hf] at h
      simp at h
      cases h
      exact foldlM_events_wf l [] evs (by intro e he; cases he) hf
  | null =>
    cases h
    intro e he
    cases he
  | bool b1 => simp [batchOfJson] at h
  | num n => simp [batchOfJson] at h
  | str s => simp [batchOfJson] at h
  | arr l => simp [batchOfJson] at h

/-- C6: decode/encode round trip.  Any submission body whose first JSON
value decodes as a `Batch` re-encodes losslessly: decoding the re-encoded
wire form gives back the very same events (all field values and their
order preserved), the encoded document lists the events in batch order,
and a nil title re-encodes as JSON `null`, not as an empty string. -/
theorem claim6_roundtrip :
    ∀ (body : List Char) (v : Json) (rest : List Char) (b : Batch),
      decodeOne body = some (v, rest) →
      batchOfJson v = some b →
      batchOfJson (encodeBatch b) = some b ∧
      encodeBatch b = .obj [("events", .arr (b.events.map encodeEvent))] ∧
      ∀ e ∈ b.events, e.title = none →
        objLookup "title" (encodeEvent e) = some .null := by
  intro body v rest b _ hb
  refine ⟨batchOfJson_encodeBatch b (batchOfJson_wf hb), rfl, ?_⟩
  intro e he htitle
  simp [objLookup, encodeEvent, htitle]

/-- Witness for C6: a concrete one-event submission with a null title and
partial fields decodes, and decoding its re-encoded form returns the same
batch. -/
theorem claim6_roundtrip_witness :
    batchOfJson
      (encodeBatch
        (Batch.mk
          [{ tsUtc := 0, tsIso := "", url := "u", title := none,
             type := "", data := none }])) =
      some (Batch.mk
        [{ tsUtc := 0, tsIso := "", url := "u", title := none,
           type := "", data := none }]) :=
  (claim6_roundtrip
    ("\x7b\"events\":[\x7b\"title\":null,\"url\":\"u\"\x7d]\x7d").data
    (.obj [("events", .arr [.obj [("title", .null), ("url", .str "u")]])])
    [] _ (by decide) (by decide)).1

end BrowseTrace
